import Mathlib

/-!
# Temperature monitor (`temperature_monitor.cpp`)

A shallow embedding of the four classes of `temperature_monitor.cpp` and of the
control loop `TemperatureMonitor::run`, followed by the properties of the
specification that are checked against it.

Modelling conventions.

* A C++ `float` is a finite IEEE 754 binary32 value, written as the rational
  number it denotes. Comparisons of two such values are exact. Every arithmetic
  result (`+ 1.0f`, `- 1.0f`, each `sum += temp`, the conversion of
  `history.size()` and the division of `getAverage`) is rounded to the nearest
  binary32 value, ties to even (`f32round`), once per operation.
* Infinities and NaN are not values of the model. Every statement below that
  depends on an arithmetic result carries hypotheses that keep all results
  within the binary32 range.
* The two device handles (`/dev/i2c-1` and the terminal) are not state of the
  model: what `read` delivers in a tick is an input of that tick.
* The CSV log file is written and truncated but never read back by the program;
  it is not part of the state. `history` is.
* The text written to the terminal by `Dashboard::display` is represented by the
  values it prints (`Snapshot`); the call of `sleep_for` is an event of the trace.
-/

namespace TempMonitor

/-! ## Binary32 arithmetic -/

/-- Rounding of a rational to the nearest integer, ties to the even one. -/
def roundHalfEven (x : ℚ) : ℤ :=
  if x - ⌊x⌋ < 1 / 2 then ⌊x⌋
  else if 1 / 2 < x - ⌊x⌋ then ⌊x⌋ + 1
  else if ⌊x⌋ % 2 = 0 then ⌊x⌋
  else ⌊x⌋ + 1

/-- The exponent of the unit in the last place of binary32 at `x`: the binade
exponent of `x`, not below that of the smallest normal number, minus the 23
fraction bits. -/
def f32scale (x : ℚ) : ℤ := max (Int.log 2 |x|) (-126) - 23

/-- Rounding to binary32, to nearest, ties to even (exponent range not bounded
above). -/
def f32round (x : ℚ) : ℚ := (roundHalfEven (x / 2 ^ f32scale x) : ℚ) * 2 ^ f32scale x

/-- The `float` sum `x + y`. -/
def fadd (x y : ℚ) : ℚ := f32round (x + y)

/-- The `float` difference `x - y`. -/
def fsub (x y : ℚ) : ℚ := f32round (x - y)

/-- The `float` quotient `x / y`. -/
def fdiv (x y : ℚ) : ℚ := f32round (x / y)

/-! ## TemperatureSensor -/

/-- The 32-bit two's-complement pattern of an `int`. -/
def toBits32 (x : Int) : Nat := (x % 2 ^ 32).toNat

/-- The `int` denoted by a 32-bit pattern. -/
def ofBits32 (n : Nat) : Int :=
  if n % 2 ^ 32 < 2 ^ 31 then (n % 2 ^ 32 : Nat) else ((n % 2 ^ 32 : Nat) : Int) - 2 ^ 32

/-- A byte delivered by `read`. -/
abbrev Byte := Fin 256

/-- Integral promotion of a `char` holding the byte `b`: the byte itself when
`char` is unsigned, its two's-complement value when `char` is signed. -/
def charToInt (charSigned : Bool) (b : Byte) : Int :=
  if charSigned && decide (128 ≤ b.val) then (b.val : Int) - 256 else (b.val : Int)

/-- The value of `raw` after lines 51-52:
`int raw = ((buf[0] << 4) | (buf[1] >> 4)); if (raw & 0x800) raw |= 0xF000;`
(`<<` multiplies by 16, `>>` is the arithmetic shift, `|` and `&` act on the
32-bit patterns; `int` has 32 bits). -/
def rawTemperature (charSigned : Bool) (b0 b1 : Byte) : Int :=
  let raw : Nat :=
    toBits32 (charToInt charSigned b0 * 16) ||| toBits32 ((charToInt charSigned b1).shiftRight 4)
  let raw : Nat := if raw &&& 0x800 ≠ 0 then raw ||| 0xF000 else raw
  ofBits32 raw

/-- `TemperatureSensor::readTemperature`. The argument `rd` is what
`read(i2c_fd, buf, 2)` delivered: `none` when it did not return 2, the two bytes
of `buf` otherwise. The conversion of `raw` to `float` and the product with
`0.0625f` are exact in binary32, since `|raw| ≤ 65535`. -/
def readTemperature (charSigned : Bool) (rd : Option (Byte × Byte)) : ℚ :=
  match rd with
  | none => 0
  | some (b0, b1) => (rawTemperature charSigned b0 b1 : ℚ) * 0.0625

/-! ## DataLogger -/

/-- The state of a `DataLogger` that its queries depend on. -/
structure DataLogger where
  history : List ℚ
  deriving DecidableEq, Repr

namespace DataLogger

/-- `DataLogger::logTemperature`: `history.push_back(temp)`. -/
def logTemperature (d : DataLogger) (temp : ℚ) : DataLogger :=
  { d with history := d.history ++ [temp] }

/-- `DataLogger::clearLog`: `history.clear()`. -/
def clearLog (_d : DataLogger) : DataLogger :=
  { history := [] }

/-- `DataLogger::getAverage`: the running `float` sum, then the `float` division
by `history.size()` converted to `float`. -/
def getAverage (d : DataLogger) : ℚ :=
  if d.history.isEmpty then 0
  else fdiv (d.history.foldl (fun sum temp => fadd sum temp) 0)
    (f32round (d.history.length : ℚ))

/-- `DataLogger::getMin`. -/
def getMin (d : DataLogger) : ℚ :=
  match d.history with
  | [] => 0
  | first :: rest =>
    (first :: rest).foldl (fun min temp => if temp < min then temp else min) first

/-- `DataLogger::getMax`. -/
def getMax (d : DataLogger) : ℚ :=
  match d.history with
  | [] => 0
  | first :: rest =>
    (first :: rest).foldl (fun max temp => if temp > max then temp else max) first

end DataLogger

/-! ## Dashboard -/

/-- The alert line printed by `Dashboard::display`. -/
inductive AlertState where
  | High
  | Low
  | Normal
  deriving DecidableEq, Repr

/-- The text of the alert line. -/
def AlertState.text : AlertState → String
  | .High => "HIGH TEMPERATURE WARNING!"
  | .Low => "LOW TEMPERATURE WARNING!"
  | .Normal => "Normal"

/-- The thresholds held by a `Dashboard`. -/
structure Dashboard where
  highThreshold : ℚ := 30
  lowThreshold : ℚ := 10
  deriving DecidableEq, Repr

/-- The values printed by one call of `Dashboard::display`. -/
structure Snapshot where
  temp : ℚ
  alert : AlertState
  highThreshold : ℚ
  lowThreshold : ℚ
  avg : ℚ
  min : ℚ
  max : ℚ
  deriving DecidableEq, Repr

namespace Dashboard

def setHighThreshold (b : Dashboard) (high : ℚ) : Dashboard := { b with highThreshold := high }

def setLowThreshold (b : Dashboard) (low : ℚ) : Dashboard := { b with lowThreshold := low }

def getHighThreshold (b : Dashboard) : ℚ := b.highThreshold

def getLowThreshold (b : Dashboard) : ℚ := b.lowThreshold

/-- The alert line chosen at lines 131-133 of `Dashboard::display`. -/
def alertStatus (b : Dashboard) (temp : ℚ) : AlertState :=
  if temp > b.highThreshold then AlertState.High
  else if temp < b.lowThreshold then AlertState.Low
  else AlertState.Normal

/-- `Dashboard::display`. -/
def display (b : Dashboard) (temp avg min max : ℚ) : Snapshot :=
  { temp := temp
    alert := b.alertStatus temp
    highThreshold := b.highThreshold
    lowThreshold := b.lowThreshold
    avg := avg
    min := min
    max := max }

end Dashboard

/-! ## InputHandler -/

/-- `InputHandler::getKey`. The argument is the byte delivered by the
non-blocking `read(STDIN_FILENO, &ch, 1)`, written as the character with that
code, `none` when the call did not return 1. -/
def getKey (pending : Option Char) : Char :=
  match pending with
  | some ch => ch
  | none => '\x00'

/-! ## TemperatureMonitor -/

/-- The members of `TemperatureMonitor` that `run` reads and writes. -/
structure TemperatureMonitor where
  logger : DataLogger := { history := [] }
  dashboard : Dashboard := {}
  running : Bool := true
  deriving DecidableEq, Repr

/-- What one tick reads from outside: the result of the sensor `read` and the
byte pending on the terminal. -/
structure TickInput where
  sensor : Option (Byte × Byte)
  pending : Option Char

/-- The observable actions of `run`. -/
inductive Event where
  | displayed (snapshot : Snapshot)
  | slept (milliseconds : Nat)
  deriving DecidableEq, Repr

namespace TemperatureMonitor

/-- The `switch (key)` of `run`, lines 201-208. -/
def dispatch (m : TemperatureMonitor) (key : Char) : TemperatureMonitor :=
  match key with
  | 'h' =>
    { m with dashboard := m.dashboard.setHighThreshold (fadd m.dashboard.getHighThreshold 1) }
  | 'l' =>
    { m with dashboard := m.dashboard.setLowThreshold (fadd m.dashboard.getLowThreshold 1) }
  | 'H' =>
    { m with dashboard := m.dashboard.setHighThreshold (fsub m.dashboard.getHighThreshold 1) }
  | 'L' =>
    { m with dashboard := m.dashboard.setLowThreshold (fsub m.dashboard.getLowThreshold 1) }
  | 'r' => { m with logger := m.logger.clearLog }
  | 'q' => { m with running := false }
  | _ => m

/-- The state after `logger.logTemperature(temp)`, line 194. -/
def logged (m : TemperatureMonitor) (temp : ℚ) : TemperatureMonitor :=
  { m with logger := m.logger.logTemperature temp }

/-- The body of the `while` loop, lines 192-211, given the value `temp` returned
by `sensor.readTemperature()` and the `key` returned by `input.getKey()`. -/
def body (m : TemperatureMonitor) (temp : ℚ) (key : Char) : TemperatureMonitor × List Event :=
  let m1 := m.logged temp
  let shown := m1.dashboard.display temp m1.logger.getAverage m1.logger.getMin m1.logger.getMax
  let m2 := m1.dispatch key
  (m2, [Event.displayed shown, Event.slept 1000])

/-- One tick of `run` on the inputs of that tick. -/
def tick (charSigned : Bool) (m : TemperatureMonitor) (i : TickInput) :
    TemperatureMonitor × List Event :=
  m.body (readTemperature charSigned i.sensor) (getKey i.pending)

/-- `TemperatureMonitor::run` on a finite sequence of tick inputs: the loop
`while (running) { ... }`, one input consumed per executed tick. The result is
the final state and the trace of the executed ticks. When the inputs are used up
while `running` is still true, the result is the state reached so far. -/
def run (charSigned : Bool) (m : TemperatureMonitor) :
    List TickInput → TemperatureMonitor × List Event
  | [] => (m, [])
  | i :: rest =>
    if m.running then
      let r := tick charSigned m i
      let r2 := run charSigned r.1 rest
      (r2.1, r.2 ++ r2.2)
    else (m, [])

/-- Specification side, not a function of the source: the unconditional
execution of one tick per input, in order. It says what "the loop executes
exactly these ticks" means; `run` is compared with it. -/
def executeTicks (charSigned : Bool) (m : TemperatureMonitor) :
    List TickInput → TemperatureMonitor × List Event
  | [] => (m, [])
  | i :: rest =>
    let r := tick charSigned m i
    let r2 := executeTicks charSigned r.1 rest
    (r2.1, r.2 ++ r2.2)

/-- Specification side, not a function of the source: the inputs of the ticks
up to and including the first one whose polled key is `'q'` (all of them when no
polled key is `'q'`). -/
def upToFirstQuit (inputs : List TickInput) : List TickInput :=
  inputs.take ((inputs.takeWhile (fun i => getKey i.pending != 'q')).length + 1)

end TemperatureMonitor

/-- Specification side, not a function of the source: the signed 12-bit
two's-complement integer whose high 8 bits are `b0` and whose low 4 bits are the
top 4 bits of `b1`, that is the unsigned value `u`, minus 4096 when bit 11 of
`u` is set. -/
def twelveBitValue (b0 b1 : Byte) : Int :=
  let u : Nat := b0.val * 16 + b1.val / 16
  if 2048 ≤ u then (u : Int) - 4096 else (u : Int)

/-- Specification side, not a function of the source: the reading that the two
bytes encode, the signed 12-bit value times `0.0625`. -/
def twelveBitCelsius (b0 b1 : Byte) : ℚ :=
  (twelveBitValue b0 b1 : ℚ) * 0.0625

/-! ## Binary32 rounding: exact cases and monotonicity -/

section Rounding

theorem roundHalfEven_intCast (z : ℤ) : roundHalfEven (z : ℚ) = z := by
  simp [roundHalfEven]

theorem floor_le_roundHalfEven (x : ℚ) : ⌊x⌋ ≤ roundHalfEven x := by
  unfold roundHalfEven
  split_ifs <;> omega

theorem roundHalfEven_le_floor_add_one (x : ℚ) : roundHalfEven x ≤ ⌊x⌋ + 1 := by
  unfold roundHalfEven
  split_ifs <;> omega

theorem roundHalfEven_mono {a b : ℚ} (h : a ≤ b) : roundHalfEven a ≤ roundHalfEven b := by
  rcases lt_or_eq_of_le (Int.floor_mono h) with hlt | heq
  · calc roundHalfEven a ≤ ⌊a⌋ + 1 := roundHalfEven_le_floor_add_one a
      _ ≤ ⌊b⌋ := hlt
      _ ≤ roundHalfEven b := floor_le_roundHalfEven b
  · unfold roundHalfEven
    rw [heq]
    split_ifs <;> first | omega | (exfalso; linarith)

theorem roundHalfEven_eq_of_near (x : ℚ) (z : ℤ) (h1 : (z : ℚ) - 1 / 2 < x)
    (h2 : x < (z : ℚ) + 1 / 2) : roundHalfEven x = z := by
  have hlo : z - 1 ≤ ⌊x⌋ := by
    have : ((z - 2 : ℤ) : ℚ) < ⌊x⌋ := by
      push_cast
      linarith [Int.lt_floor_add_one x]
    have := Int.cast_lt.mp this
    omega
  have hhi : ⌊x⌋ ≤ z := by
    have : ((⌊x⌋ : ℤ) : ℚ) < ((z + 1 : ℤ) : ℚ) := by
      push_cast
      linarith [Int.floor_le x]
    have := Int.cast_lt.mp this
    omega
  rcases (by omega : ⌊x⌋ = z - 1 ∨ ⌊x⌋ = z) with hf | hf
  · have c1 : ¬ x - ((z - 1 : ℤ) : ℚ) < 1 / 2 := by push_cast; linarith
    have c2 : 1 / 2 < x - ((z - 1 : ℤ) : ℚ) := by push_cast; linarith
    unfold roundHalfEven
    rw [hf, if_neg c1, if_pos c2]
    omega
  · have c1 : x - (z : ℚ) < 1 / 2 := by linarith
    unfold roundHalfEven
    rw [hf, if_pos c1]

theorem roundHalfEven_tie (z : ℤ) :
    roundHalfEven ((z : ℚ) + 1 / 2) = if z % 2 = 0 then z else z + 1 := by
  have hf : ⌊(z : ℚ) + 1 / 2⌋ = z := by
    rw [Int.floor_eq_iff]
    constructor <;> linarith
  have e : (z : ℚ) + 1 / 2 - (z : ℚ) = 1 / 2 := by ring
  unfold roundHalfEven
  rw [hf, e, if_neg (lt_irrefl _), if_neg (lt_irrefl _)]

theorem two_zpow_pos (n : ℤ) : (0 : ℚ) < 2 ^ n := zpow_pos (by norm_num) n

theorem abs_lt_two_zpow_scale (x : ℚ) : |x| < 2 ^ (f32scale x + 24) := by
  have h := Int.lt_zpow_succ_log_self (b := 2) (by norm_num) |x|
  have hle : Int.log 2 |x| + 1 ≤ f32scale x + 24 := by
    unfold f32scale
    have := le_max_left (Int.log 2 |x|) (-126)
    omega
  calc |x| < ((2 : ℕ) : ℚ) ^ (Int.log 2 |x| + 1) := h
    _ = (2 : ℚ) ^ (Int.log 2 |x| + 1) := by norm_num
    _ ≤ 2 ^ (f32scale x + 24) := zpow_le_zpow_right₀ (by norm_num) hle

theorem two_zpow_scale_le_abs (x : ℚ) (hx : x ≠ 0) (h : -149 < f32scale x) :
    (2 : ℚ) ^ (f32scale x + 23) ≤ |x| := by
  have hpos : 0 < |x| := abs_pos.mpr hx
  have h1 := Int.zpow_log_le_self (b := 2) (by norm_num) hpos
  have he : f32scale x + 23 = Int.log 2 |x| := by
    unfold f32scale at h ⊢
    rcases max_cases (Int.log 2 |x|) (-126) with ⟨e, _⟩ | ⟨e, _⟩ <;> omega
  rw [he]
  calc (2 : ℚ) ^ Int.log 2 |x| = ((2 : ℕ) : ℚ) ^ Int.log 2 |x| := by norm_num
    _ ≤ |x| := h1

theorem f32scale_mono {x y : ℚ} (hx : x ≠ 0) (h : |x| ≤ |y|) : f32scale x ≤ f32scale y := by
  unfold f32scale
  have := Int.log_mono_right (b := 2) (abs_pos.mpr hx) h
  have := max_le_max this (le_refl (-126 : ℤ))
  omega

theorem f32scale_of_binade (x : ℚ) (e : ℤ) (h1 : (2 : ℚ) ^ e ≤ |x|) (h2 : |x| < 2 ^ (e + 1)) :
    f32scale x = max e (-126) - 23 := by
  have hpos : 0 < |x| := lt_of_lt_of_le (two_zpow_pos e) h1
  have a : e ≤ Int.log 2 |x| := by
    rw [← Int.zpow_le_iff_le_log (by norm_num) hpos]
    simpa using h1
  have b : Int.log 2 |x| < e + 1 := by
    rw [← Int.lt_zpow_iff_log_lt (by norm_num) hpos]
    simpa using h2
  unfold f32scale
  rw [show Int.log 2 |x| = e by omega]

theorem roundHalfEven_zero : roundHalfEven 0 = 0 := by
  simpa using roundHalfEven_intCast 0

theorem f32round_zero : f32round 0 = 0 := by
  simp [f32round, roundHalfEven_zero]

theorem f32round_exact (m t : ℤ) (hm : |m| < 2 ^ 24) (ht : -149 ≤ t) :
    f32round ((m : ℚ) * 2 ^ t) = (m : ℚ) * 2 ^ t := by
  by_cases hm0 : m = 0
  · subst hm0
    simp [f32round_zero]
  have hx : (m : ℚ) * 2 ^ t ≠ 0 :=
    mul_ne_zero (Int.cast_ne_zero.mpr hm0) (ne_of_gt (two_zpow_pos t))
  have hpos : 0 < |(m : ℚ) * 2 ^ t| := abs_pos.mpr hx
  have habs : |(m : ℚ) * 2 ^ t| < ((2 : ℕ) : ℚ) ^ (t + 24) := by
    rw [abs_mul, abs_of_pos (two_zpow_pos t)]
    have h1 : |(m : ℚ)| < 2 ^ 24 := by
      have : ((|m| : ℤ) : ℚ) < ((2 ^ 24 : ℤ) : ℚ) := Int.cast_lt.mpr hm
      simpa using this
    have h2 : ((2 : ℕ) : ℚ) ^ (t + 24) = 2 ^ 24 * 2 ^ t := by
      rw [zpow_add₀ (by norm_num)]
      norm_num
      ring
    rw [h2]
    exact mul_lt_mul_of_pos_right h1 (two_zpow_pos t)
  have hlog : Int.log 2 |(m : ℚ) * 2 ^ t| < t + 24 :=
    (Int.lt_zpow_iff_log_lt (by norm_num) hpos).mp habs
  have hs : f32scale ((m : ℚ) * 2 ^ t) ≤ t := by
    unfold f32scale
    rcases max_cases (Int.log 2 |(m : ℚ) * 2 ^ t|) (-126) with ⟨e, _⟩ | ⟨e, _⟩ <;> omega
  obtain ⟨n, hn⟩ := Int.eq_ofNat_of_zero_le (sub_nonneg.mpr hs)
  have ht' : t = f32scale ((m : ℚ) * 2 ^ t) + n := by omega
  unfold f32round
  generalize f32scale ((m : ℚ) * 2 ^ t) = s at *
  have hq : (m : ℚ) * 2 ^ t / 2 ^ s = ((m * 2 ^ n : ℤ) : ℚ) := by
    rw [ht', zpow_add₀ (by norm_num), zpow_natCast]
    push_cast
    field_simp
    ring
  rw [hq, roundHalfEven_intCast, ht', zpow_add₀ (by norm_num), zpow_natCast]
  push_cast
  ring

theorem two_zpow_add_24 (s : ℤ) : (2 : ℚ) ^ (s + 24) = 16777216 * 2 ^ s := by
  rw [zpow_add₀ (by norm_num)]
  norm_num
  ring

theorem two_zpow_add_23 (s : ℤ) : (2 : ℚ) ^ (s + 23) = 8388608 * 2 ^ s := by
  rw [zpow_add₀ (by norm_num)]
  norm_num
  ring

theorem f32round_nonneg {x : ℚ} (h : 0 ≤ x) : 0 ≤ f32round x := by
  unfold f32round
  have h0 : (0 : ℚ) ≤ x / 2 ^ f32scale x := div_nonneg h (le_of_lt (two_zpow_pos _))
  have := roundHalfEven_mono h0
  rw [roundHalfEven_zero] at this
  exact mul_nonneg (by exact_mod_cast this) (le_of_lt (two_zpow_pos _))

theorem f32round_nonpos {x : ℚ} (h : x ≤ 0) : f32round x ≤ 0 := by
  unfold f32round
  have h0 : x / 2 ^ f32scale x ≤ 0 := div_nonpos_of_nonpos_of_nonneg h (le_of_lt (two_zpow_pos _))
  have := roundHalfEven_mono h0
  rw [roundHalfEven_zero] at this
  exact mul_nonpos_of_nonpos_of_nonneg (by exact_mod_cast this) (le_of_lt (two_zpow_pos _))

theorem f32round_le_pow (x : ℚ) : f32round x ≤ 2 ^ (f32scale x + 24) := by
  have hb := abs_lt_two_zpow_scale x
  have hq : x / 2 ^ f32scale x ≤ ((2 ^ 24 : ℤ) : ℚ) := by
    rw [div_le_iff₀ (two_zpow_pos _)]
    push_cast
    rw [← two_zpow_add_24]
    exact le_of_lt (lt_of_le_of_lt (le_abs_self x) hb)
  have := roundHalfEven_mono hq
  rw [roundHalfEven_intCast] at this
  have hc : (roundHalfEven (x / 2 ^ f32scale x) : ℚ) ≤ 2 ^ 24 := by exact_mod_cast this
  unfold f32round
  calc (roundHalfEven (x / 2 ^ f32scale x) : ℚ) * 2 ^ f32scale x
      ≤ 2 ^ 24 * 2 ^ f32scale x := mul_le_mul_of_nonneg_right hc (le_of_lt (two_zpow_pos _))
    _ = 2 ^ (f32scale x + 24) := by
      rw [zpow_add₀ (by norm_num)]
      norm_num
      ring

theorem neg_pow_le_f32round (x : ℚ) : -(2 ^ (f32scale x + 24)) ≤ f32round x := by
  have hb := abs_lt_two_zpow_scale x
  have hq : ((-(2 ^ 24) : ℤ) : ℚ) ≤ x / 2 ^ f32scale x := by
    rw [le_div_iff₀ (two_zpow_pos _)]
    push_cast
    rw [two_zpow_add_24] at hb
    linarith [neg_abs_le x]
  have := roundHalfEven_mono hq
  rw [roundHalfEven_intCast] at this
  have hc : -(2 ^ 24 : ℚ) ≤ (roundHalfEven (x / 2 ^ f32scale x) : ℚ) := by exact_mod_cast this
  unfold f32round
  calc -(2 ^ (f32scale x + 24) : ℚ) = -(2 ^ 24) * 2 ^ f32scale x := by
        rw [zpow_add₀ (by norm_num)]
        norm_num
        ring
    _ ≤ (roundHalfEven (x / 2 ^ f32scale x) : ℚ) * 2 ^ f32scale x :=
        mul_le_mul_of_nonneg_right hc (le_of_lt (two_zpow_pos _))

theorem pow_le_f32round {x : ℚ} (hx : 0 < x) (h : -149 < f32scale x) :
    2 ^ (f32scale x + 23) ≤ f32round x := by
  have hb := two_zpow_scale_le_abs x (ne_of_gt hx) h
  rw [abs_of_pos hx] at hb
  have hq : ((2 ^ 23 : ℤ) : ℚ) ≤ x / 2 ^ f32scale x := by
    rw [le_div_iff₀ (two_zpow_pos _)]
    push_cast
    rw [← two_zpow_add_23]
    exact hb
  have := roundHalfEven_mono hq
  rw [roundHalfEven_intCast] at this
  have hc : (2 ^ 23 : ℚ) ≤ (roundHalfEven (x / 2 ^ f32scale x) : ℚ) := by exact_mod_cast this
  unfold f32round
  calc (2 ^ (f32scale x + 23) : ℚ) = 2 ^ 23 * 2 ^ f32scale x := by
        rw [zpow_add₀ (by norm_num)]
        norm_num
        ring
    _ ≤ (roundHalfEven (x / 2 ^ f32scale x) : ℚ) * 2 ^ f32scale x :=
        mul_le_mul_of_nonneg_right hc (le_of_lt (two_zpow_pos _))

theorem f32round_le_neg_pow {x : ℚ} (hx : x < 0) (h : -149 < f32scale x) :
    f32round x ≤ -(2 ^ (f32scale x + 23)) := by
  have hb := two_zpow_scale_le_abs x (ne_of_lt hx) h
  rw [abs_of_neg hx] at hb
  have hq : x / 2 ^ f32scale x ≤ ((-(2 ^ 23) : ℤ) : ℚ) := by
    rw [div_le_iff₀ (two_zpow_pos _)]
    push_cast
    rw [two_zpow_add_23] at hb
    linarith
  have := roundHalfEven_mono hq
  rw [roundHalfEven_intCast] at this
  have hc : (roundHalfEven (x / 2 ^ f32scale x) : ℚ) ≤ -(2 ^ 23 : ℚ) := by exact_mod_cast this
  unfold f32round
  calc (roundHalfEven (x / 2 ^ f32scale x) : ℚ) * 2 ^ f32scale x
      ≤ -(2 ^ 23) * 2 ^ f32scale x := mul_le_mul_of_nonneg_right hc (le_of_lt (two_zpow_pos _))
    _ = -(2 ^ (f32scale x + 23) : ℚ) := by
        rw [zpow_add₀ (by norm_num)]
        norm_num
        ring

theorem f32round_mono {x y : ℚ} (h : x ≤ y) : f32round x ≤ f32round y := by
  rcases le_or_lt x 0 with hx | hx
  · rcases le_or_lt 0 y with hy | hy
    · exact le_trans (f32round_nonpos hx) (f32round_nonneg hy)
    · have hxy : |y| ≤ |x| := by
        rw [abs_of_neg hy, abs_of_nonpos hx]
        linarith
      rcases lt_or_eq_of_le (f32scale_mono (ne_of_lt hy) hxy) with hlt | heq
      · have hxneg : x < 0 := lt_of_le_of_lt h hy
        have hsx : -149 < f32scale x := by
          have : -149 ≤ f32scale y := by
            unfold f32scale
            have := le_max_right (Int.log 2 |y|) (-126)
            omega
          omega
        calc f32round x ≤ -(2 ^ (f32scale x + 23)) := f32round_le_neg_pow hxneg hsx
          _ ≤ -(2 ^ (f32scale y + 24)) := by
            apply neg_le_neg
            exact zpow_le_zpow_right₀ (by norm_num) (by omega)
          _ ≤ f32round y := neg_pow_le_f32round y
      · unfold f32round
        rw [heq]
        apply mul_le_mul_of_nonneg_right _ (le_of_lt (two_zpow_pos _))
        exact_mod_cast roundHalfEven_mono
          (div_le_div_of_nonneg_right h (le_of_lt (two_zpow_pos _)))
  · have hy : 0 < y := lt_of_lt_of_le hx h
    have hxy : |x| ≤ |y| := by
      rw [abs_of_pos hx, abs_of_pos hy]
      exact h
    rcases lt_or_eq_of_le (f32scale_mono (ne_of_gt hx) hxy) with hlt | heq
    · have hsy : -149 < f32scale y := by
        have : -149 ≤ f32scale x := by
          unfold f32scale
          have := le_max_right (Int.log 2 |x|) (-126)
          omega
        omega
      calc f32round x ≤ 2 ^ (f32scale x + 24) := f32round_le_pow x
        _ ≤ 2 ^ (f32scale y + 23) := zpow_le_zpow_right₀ (by norm_num) (by omega)
        _ ≤ f32round y := pow_le_f32round hy hsy
    · unfold f32round
      rw [heq]
      apply mul_le_mul_of_nonneg_right _ (le_of_lt (two_zpow_pos _))
      exact_mod_cast roundHalfEven_mono
        (div_le_div_of_nonneg_right h (le_of_lt (two_zpow_pos _)))

theorem f32round_exact_le (m t : ℤ) (hm : |m| ≤ 2 ^ 24) (ht : -149 ≤ t) :
    f32round ((m : ℚ) * 2 ^ t) = (m : ℚ) * 2 ^ t := by
  rcases lt_or_eq_of_le hm with h | h
  · exact f32round_exact m t h ht
  · have e : ∀ c : ℤ, |c| < 2 ^ 24 → m = 2 * c →
        f32round ((m : ℚ) * 2 ^ t) = (m : ℚ) * 2 ^ t := by
      intro c hc hmc
      have hx : (m : ℚ) * 2 ^ t = (c : ℚ) * 2 ^ (t + 1) := by
        rw [hmc, zpow_add_one₀ (by norm_num)]
        push_cast
        ring
      rw [hx]
      exact f32round_exact c (t + 1) hc (by omega)
    rcases (abs_eq (by norm_num)).mp h with h1 | h1
    · exact e (2 ^ 23) (by norm_num) (by rw [h1]; norm_num)
    · exact e (-(2 ^ 23)) (by norm_num) (by rw [h1]; norm_num)

theorem f32round_intCast (n : ℤ) (h : |n| ≤ 2 ^ 24) : f32round (n : ℚ) = n := by
  simpa using f32round_exact_le n 0 h (by norm_num)

theorem f32round_natCast (n : ℕ) (h : n ≤ 2 ^ 24) : f32round (n : ℚ) = n := by
  have := f32round_intCast (n : ℤ) (by rw [abs_of_nonneg (by positivity)]; exact_mod_cast h)
  simpa using this

theorem f32round_sixteenth (k : ℤ) (h : |k| ≤ 2 ^ 24) : f32round ((k : ℚ) / 16) = k / 16 := by
  have e : (k : ℚ) * 2 ^ (-4 : ℤ) = k / 16 := by
    rw [zpow_neg, div_eq_mul_inv]
    norm_num
  have := f32round_exact_le k (-4) h (by norm_num)
  rwa [e] at this

/-- The value of `f32round` at a number of a known binade. -/
theorem f32round_eval (x : ℚ) (e z : ℤ) (he : -126 ≤ e) (h1 : (2 : ℚ) ^ e ≤ |x|)
    (h2 : |x| < 2 ^ (e + 1)) (hz : roundHalfEven (x / 2 ^ (e - 23)) = z) :
    f32round x = (z : ℚ) * 2 ^ (e - 23) := by
  unfold f32round
  rw [f32scale_of_binade x e h1 h2, max_eq_left he, hz]

/-- The running `float` sum is exact while the numbers are sixteenths whose
numerators stay within 24 bits. -/
theorem foldl_fadd_exact (l : List ℚ) :
    ∀ a : ℤ, (∀ x ∈ l, ∃ k : ℤ, x = (k : ℚ) / 16) →
      |(a : ℚ)| + 16 * (l.map (fun x => |x|)).sum ≤ 2 ^ 24 →
      l.foldl (fun sum temp => fadd sum temp) ((a : ℚ) / 16) = (a : ℚ) / 16 + l.sum := by
  induction l with
  | nil => intro a _ _; simp
  | cons x xs ih =>
    intro a hgrid hb
    obtain ⟨k, hk⟩ := hgrid x (List.mem_cons_self _ _)
    have hnn : 0 ≤ (xs.map (fun x => |x|)).sum :=
      List.sum_nonneg (by intro y hy; obtain ⟨z, _, rfl⟩ := List.mem_map.mp hy; exact abs_nonneg z)
    simp only [List.map_cons, List.sum_cons] at hb
    have hxk : 16 * |x| = |(k : ℚ)| := by
      rw [hk, abs_div]
      norm_num
      ring
    have hak : |((a + k : ℤ) : ℚ)| ≤ 2 ^ 24 := by
      push_cast
      have := abs_add (a : ℚ) (k : ℚ)
      linarith
    have hstep : fadd ((a : ℚ) / 16) x = ((a + k : ℤ) : ℚ) / 16 := by
      unfold fadd
      rw [hk, ← add_div]
      have := f32round_sixteenth (a + k) (by exact_mod_cast hak)
      push_cast at this ⊢
      exact this
    simp only [List.foldl_cons, List.sum_cons, hstep]
    rw [ih (a + k) (fun y hy => hgrid y (List.mem_cons_of_mem _ hy))]
    · rw [hk]
      push_cast
      ring
    · push_cast
      have := abs_add (a : ℚ) (k : ℚ)
      linarith

theorem fadd_one_exact (x : ℚ) (a : ℤ) (hx : x = a) (h : |a + 1| ≤ 2 ^ 24) :
    fadd x 1 = x + 1 := by
  have := f32round_intCast (a + 1) h
  unfold fadd
  rw [hx]
  push_cast at this
  exact this

theorem fsub_one_exact (x : ℚ) (a : ℤ) (hx : x = a) (h : |a - 1| ≤ 2 ^ 24) :
    fsub x 1 = x - 1 := by
  have := f32round_intCast (a - 1) h
  unfold fsub
  rw [hx]
  push_cast at this
  exact this

theorem abs_succ_le (a : ℤ) (h : |a| < 2 ^ 24) : |a + 1| ≤ 2 ^ 24 := by
  rw [abs_lt] at h
  rw [abs_le]
  constructor <;> omega

theorem abs_pred_le (a : ℤ) (h : |a| < 2 ^ 24) : |a - 1| ≤ 2 ^ 24 := by
  rw [abs_lt] at h
  rw [abs_le]
  constructor <;> omega

/-- The `float` sum `16777216 + 1` is `16777216`: the exact sum is a tie and the
even neighbour is taken. -/
theorem fadd_two_pow_24 : fadd 16777216 1 = 16777216 := by
  have hz : roundHalfEven ((16777216 + 1 : ℚ) / 2 ^ ((24 : ℤ) - 23)) = 8388608 := by
    have e : (16777216 + 1 : ℚ) / 2 ^ ((24 : ℤ) - 23) = ((8388608 : ℤ) : ℚ) + 1 / 2 := by
      norm_num
    rw [e, roundHalfEven_tie]
    norm_num
  have := f32round_eval (16777216 + 1) 24 8388608 (by norm_num)
    (by rw [abs_of_pos (by norm_num)]; norm_num)
    (by rw [abs_of_pos (by norm_num)]; norm_num) hz
  unfold fadd
  rw [this]
  norm_num

/-- The `float` difference `-16777216 - 1` is `-16777216`. -/
theorem fsub_neg_two_pow_24 : fsub (-16777216) 1 = -16777216 := by
  have hz : roundHalfEven ((-16777216 - 1 : ℚ) / 2 ^ ((24 : ℤ) - 23)) = -8388608 := by
    have e : (-16777216 - 1 : ℚ) / 2 ^ ((24 : ℤ) - 23) = ((-8388609 : ℤ) : ℚ) + 1 / 2 := by
      norm_num
    rw [e, roundHalfEven_tie]
    norm_num
  have := f32round_eval (-16777216 - 1) 24 (-8388608) (by norm_num)
    (by rw [abs_of_neg (by norm_num)]; norm_num)
    (by rw [abs_of_neg (by norm_num)]; norm_num) hz
  unfold fsub
  rw [this]
  norm_num

end Rounding

/-! ## Auxiliary facts about the three linear scans -/

section Scans

theorem foldl_min_le_init (l : List ℚ) (a : ℚ) :
    l.foldl (fun min temp => if temp < min then temp else min) a ≤ a := by
  induction l generalizing a with
  | nil => simp
  | cons x xs ih =>
    simp only [List.foldl_cons]
    refine le_trans (ih _) ?_
    split
    · exact le_of_lt (by assumption)
    · exact le_refl a

theorem foldl_min_le_mem (l : List ℚ) (a x : ℚ) (hx : x ∈ l) :
    l.foldl (fun min temp => if temp < min then temp else min) a ≤ x := by
  induction l generalizing a with
  | nil => simp at hx
  | cons y ys ih =>
    simp only [List.foldl_cons]
    rcases List.mem_cons.mp hx with rfl | h
    · refine le_trans (foldl_min_le_init ys _) ?_
      split
      · exact le_refl x
      · exact not_lt.mp (by assumption)
    · exact ih _ h

theorem foldl_min_mem (l : List ℚ) (a : ℚ) :
    l.foldl (fun min temp => if temp < min then temp else min) a = a ∨
      l.foldl (fun min temp => if temp < min then temp else min) a ∈ l := by
  induction l generalizing a with
  | nil => simp
  | cons y ys ih =>
    simp only [List.foldl_cons, List.mem_cons]
    rcases ih (if y < a then y else a) with h | h
    · rw [h]
      split
      · exact Or.inr (Or.inl rfl)
      · exact Or.inl rfl
    · exact Or.inr (Or.inr h)

theorem init_le_foldl_max (l : List ℚ) (a : ℚ) :
    a ≤ l.foldl (fun max temp => if temp > max then temp else max) a := by
  induction l generalizing a with
  | nil => simp
  | cons x xs ih =>
    simp only [List.foldl_cons]
    refine le_trans ?_ (ih _)
    split
    · exact le_of_lt (by assumption)
    · exact le_refl a

theorem mem_le_foldl_max (l : List ℚ) (a x : ℚ) (hx : x ∈ l) :
    x ≤ l.foldl (fun max temp => if temp > max then temp else max) a := by
  induction l generalizing a with
  | nil => simp at hx
  | cons y ys ih =>
    simp only [List.foldl_cons]
    rcases List.mem_cons.mp hx with rfl | h
    · refine le_trans ?_ (init_le_foldl_max ys _)
      split
      · exact le_refl x
      · exact not_lt.mp (by assumption)
    · exact ih _ h

theorem foldl_max_mem (l : List ℚ) (a : ℚ) :
    l.foldl (fun max temp => if temp > max then temp else max) a = a ∨
      l.foldl (fun max temp => if temp > max then temp else max) a ∈ l := by
  induction l generalizing a with
  | nil => simp
  | cons y ys ih =>
    simp only [List.foldl_cons, List.mem_cons]
    rcases ih (if y > a then y else a) with h | h
    · rw [h]
      split
      · exact Or.inr (Or.inl rfl)
      · exact Or.inl rfl
    · exact Or.inr (Or.inr h)

theorem abs_le_sum_abs (l : List ℚ) (x : ℚ) (hx : x ∈ l) :
    |x| ≤ (l.map (fun y => |y|)).sum := by
  induction l with
  | nil => simp at hx
  | cons y ys ih =>
    have hnn : 0 ≤ (ys.map (fun y => |y|)).sum :=
      List.sum_nonneg (by intro z hz; obtain ⟨w, _, rfl⟩ := List.mem_map.mp hz; exact abs_nonneg w)
    simp only [List.map_cons, List.sum_cons]
    rcases List.mem_cons.mp hx with rfl | h
    · linarith
    · linarith [ih h, abs_nonneg y]

end Scans

namespace DataLogger

theorem getMin_mem (d : DataLogger) (h : d.history ≠ []) : d.getMin ∈ d.history := by
  unfold getMin
  cases hd : d.history with
  | nil => exact absurd hd h
  | cons first rest =>
    simp only
    rcases foldl_min_mem (first :: rest) first with e | e
    · rw [e]; exact List.mem_cons_self _ _
    · exact e

theorem getMin_le (d : DataLogger) (x : ℚ) (hx : x ∈ d.history) : d.getMin ≤ x := by
  unfold getMin
  cases hd : d.history with
  | nil => rw [hd] at hx; simp at hx
  | cons first rest =>
    simp only
    rw [hd] at hx
    exact foldl_min_le_mem (first :: rest) first x hx

theorem getMax_mem (d : DataLogger) (h : d.history ≠ []) : d.getMax ∈ d.history := by
  unfold getMax
  cases hd : d.history with
  | nil => exact absurd hd h
  | cons first rest =>
    simp only
    rcases foldl_max_mem (first :: rest) first with e | e
    · rw [e]; exact List.mem_cons_self _ _
    · exact e

theorem le_getMax (d : DataLogger) (x : ℚ) (hx : x ∈ d.history) : x ≤ d.getMax := by
  unfold getMax
  cases hd : d.history with
  | nil => rw [hd] at hx; simp at hx
  | cons first rest =>
    simp only
    rw [hd] at hx
    exact mem_le_foldl_max (first :: rest) first x hx

theorem history_foldl_logTemperature (temps : List ℚ) :
    ∀ d : DataLogger, (temps.foldl logTemperature d).history = d.history ++ temps := by
  induction temps with
  | nil => intro d; simp
  | cons t ts ih => intro d; simp [ih, logTemperature]

theorem getMax_replicate (n : ℕ) (x : ℚ) (hn : 0 < n) :
    (DataLogger.mk (List.replicate n x)).getMax = x := by
  have hne : (DataLogger.mk (List.replicate n x)).history ≠ [] := by
    intro hnil
    have := congrArg List.length hnil
    simp only [List.length_replicate, List.length_nil] at this
    omega
  exact List.eq_of_mem_replicate (getMax_mem _ hne)

/-- The running `float` sum of `n` copies of `k / 16` is exact while
`n * |k| ≤ 2 ^ 24`; one more copy is then added with one rounding. -/
theorem getAverage_replicate_succ (n : ℕ) (k : ℤ) (x : ℚ) (hx : x = (k : ℚ) / 16)
    (h : (n : ℚ) * |(k : ℚ)| ≤ 2 ^ 24) :
    (DataLogger.mk (List.replicate (n + 1) x)).getAverage =
      fdiv (fadd ((n : ℚ) * x) x) (f32round ((n + 1 : ℕ) : ℚ)) := by
  have hs := foldl_fadd_exact (List.replicate n x) 0
    (fun y hy => ⟨k, by rw [List.eq_of_mem_replicate hy, hx]⟩)
    (by
      rw [List.map_replicate, List.sum_replicate, nsmul_eq_mul, hx, abs_div]
      norm_num
      linarith)
  simp only [Int.cast_zero, zero_div, zero_add, List.sum_replicate, nsmul_eq_mul] at hs
  unfold getAverage
  have hne : (List.replicate (n + 1) x).isEmpty = false := by
    rw [List.replicate_succ]
    rfl
  simp only [hne, Bool.false_eq_true, if_false, List.length_replicate]
  rw [List.replicate_succ', List.foldl_append, hs]
  rfl

theorem length_pos_of_ne_nil (d : DataLogger) (h : d.history ≠ []) :
    (0 : ℚ) < (d.history.length : ℚ) := by
  have : 0 < d.history.length := List.length_pos.mpr h
  exact_mod_cast this

/-- The exact mean of a non-empty history lies between `getMin` and `getMax`. -/
theorem exact_mean_bounds (d : DataLogger) (h : d.history ≠ []) :
    d.getMin ≤ d.history.sum / (d.history.length : ℚ) ∧
      d.history.sum / (d.history.length : ℚ) ≤ d.getMax := by
  have hn := length_pos_of_ne_nil d h
  constructor
  · rw [le_div_iff₀ hn]
    have := List.card_nsmul_le_sum d.history d.getMin (fun x hx => getMin_le d x hx)
    rw [nsmul_eq_mul] at this
    linarith
  · rw [div_le_iff₀ hn]
    have := List.sum_le_card_nsmul d.history d.getMax (fun x hx => le_getMax d x hx)
    rw [nsmul_eq_mul] at this
    linarith

/-- On sixteenths whose magnitudes sum to at most `2 ^ 24` sixteenths, with at
most `2 ^ 24` readings, `getAverage` is the exact mean rounded once. -/
theorem getAverage_on_grid (d : DataLogger) (h : d.history ≠ [])
    (hgrid : ∀ x ∈ d.history, ∃ k : ℤ, x = (k : ℚ) / 16)
    (hsum : 16 * (d.history.map (fun x => |x|)).sum ≤ 2 ^ 24)
    (hlen : d.history.length ≤ 2 ^ 24) :
    d.getAverage = f32round (d.history.sum / (d.history.length : ℚ)) := by
  have hs := foldl_fadd_exact d.history 0 hgrid (by simpa using hsum)
  simp only [Int.cast_zero, zero_div, zero_add] at hs
  unfold getAverage
  rw [if_neg (by simpa [List.isEmpty_iff] using h), hs, f32round_natCast _ hlen]
  rfl

theorem mem_exact_on_grid (d : DataLogger)
    (hgrid : ∀ x ∈ d.history, ∃ k : ℤ, x = (k : ℚ) / 16)
    (hsum : 16 * (d.history.map (fun x => |x|)).sum ≤ 2 ^ 24) (x : ℚ) (hx : x ∈ d.history) :
    f32round x = x := by
  obtain ⟨k, hk⟩ := hgrid x hx
  have h1 := abs_le_sum_abs d.history x hx
  have h2 : 16 * |x| = |(k : ℚ)| := by
    rw [hk, abs_div]
    norm_num
    ring
  have h3 : |(k : ℚ)| ≤ 2 ^ 24 := by linarith
  rw [hk]
  exact f32round_sixteenth k (by exact_mod_cast h3)

/-- C1, as stated, fails: after 41839 readings of 25.0625 (the bytes `0x19 0x10`,
about 11.6 hours at one reading per second) `getMax()` is 25.0625 and
`getAverage()` is 13139969/524288, which is larger. -/
theorem average_above_max :
    readTemperature false (some (0x19, 0x10)) = 401 / 16 ∧
    readTemperature true (some (0x19, 0x10)) = 401 / 16 ∧
    (DataLogger.mk (List.replicate 41839 (401 / 16))).history ≠ [] ∧
    (DataLogger.mk (List.replicate 41839 (401 / 16))).getMax = 401 / 16 ∧
    (DataLogger.mk (List.replicate 41839 (401 / 16))).getAverage = 13139969 / 524288 ∧
    ¬ (DataLogger.mk (List.replicate 41839 (401 / 16))).getAverage ≤
      (DataLogger.mk (List.replicate 41839 (401 / 16))).getMax := by
  have hmax := getMax_replicate 41839 (401 / 16) (by norm_num)
  have havg : (DataLogger.mk (List.replicate 41839 (401 / 16))).getAverage =
      13139969 / 524288 := by
    have h := getAverage_replicate_succ 41838 401 (401 / 16) (by norm_num)
      (by rw [abs_of_pos (by norm_num)]; norm_num)
    have e1 : ((41838 : ℕ) : ℚ) * (401 / 16) + 401 / 16 = 16777439 / 16 := by norm_num
    have e2 : f32round (16777439 / 16) = 1048590 := by
      have hz : roundHalfEven ((16777439 / 16 : ℚ) / 2 ^ ((20 : ℤ) - 23)) = 8388720 := by
        have e : (16777439 / 16 : ℚ) / 2 ^ ((20 : ℤ) - 23) = ((8388719 : ℤ) : ℚ) + 1 / 2 := by
          norm_num [zpow_neg]
        rw [e, roundHalfEven_tie]
        norm_num
      have := f32round_eval (16777439 / 16) 20 8388720 (by norm_num)
        (by rw [abs_of_pos (by norm_num)]; norm_num)
        (by rw [abs_of_pos (by norm_num)]; norm_num) hz
      rw [this]
      norm_num [zpow_neg]
    have e3 : f32round (((41838 + 1 : ℕ) : ℚ)) = 41839 := by
      have := f32round_natCast (41838 + 1) (by norm_num)
      rw [this]
      norm_num
    have e4 : f32round (1048590 / 41839) = 13139969 / 524288 := by
      have hz : roundHalfEven ((1048590 / 41839 : ℚ) / 2 ^ ((4 : ℤ) - 23)) = 13139969 := by
        apply roundHalfEven_eq_of_near <;> norm_num [zpow_neg]
      have := f32round_eval (1048590 / 41839) 4 13139969 (by norm_num)
        (by rw [abs_of_pos (by norm_num)]; norm_num)
        (by rw [abs_of_pos (by norm_num)]; norm_num) hz
      rw [this]
      norm_num [zpow_neg]
    rw [show (41839 : ℕ) = 41838 + 1 from rfl, h]
    unfold fdiv fadd
    rw [e1, e2, e3, e4]
  have hread : ∀ cs : Bool, readTemperature cs (some (0x19, 0x10)) = 401 / 16 := by
    intro cs
    have r : rawTemperature cs 0x19 0x10 = 401 := by cases cs <;> decide
    simp only [readTemperature, r]
    norm_num
  refine ⟨hread false, hread true, ?_, hmax, havg, ?_⟩
  · intro hnil
    have := congrArg List.length hnil
    simp only [List.length_replicate, List.length_nil] at this
    exact absurd this (by norm_num)
  · rw [havg, hmax]
    norm_num

/-- C1, amended. For every non-empty history of readings that are multiples of
0.0625 (as every sensor reading is), with `16 * Σ|reading| ≤ 2 ^ 24` and at most
`2 ^ 24` readings, `getMin() ≤ getAverage() ≤ getMax()`. -/
theorem min_le_average_le_max_on_grid (d : DataLogger) (h : d.history ≠ [])
    (hgrid : ∀ x ∈ d.history, ∃ k : ℤ, x = (k : ℚ) / 16)
    (hsum : 16 * (d.history.map (fun x => |x|)).sum ≤ 2 ^ 24)
    (hlen : d.history.length ≤ 2 ^ 24) :
    d.getMin ≤ d.getAverage ∧ d.getAverage ≤ d.getMax := by
  have hb := exact_mean_bounds d h
  rw [getAverage_on_grid d h hgrid hsum hlen]
  constructor
  · have := f32round_mono hb.1
    rwa [mem_exact_on_grid d hgrid hsum _ (getMin_mem d h)] at this
  · have := f32round_mono hb.2
    rwa [mem_exact_on_grid d hgrid hsum _ (getMax_mem d h)] at this

theorem grid_example : ∀ x ∈ (DataLogger.mk [20, 25, 15]).history, ∃ k : ℤ, x = (k : ℚ) / 16 := by
  intro x hx
  simp only [List.mem_cons, List.mem_singleton, List.not_mem_nil, or_false] at hx
  rcases hx with rfl | rfl | rfl
  · exact ⟨320, by norm_num⟩
  · exact ⟨400, by norm_num⟩
  · exact ⟨240, by norm_num⟩

theorem grid_example_sum :
    16 * ((DataLogger.mk [20, 25, 15]).history.map (fun x => |x|)).sum ≤ 2 ^ 24 := by
  simp only [List.map_cons, List.map_nil, List.sum_cons, List.sum_nil]
  rw [abs_of_pos (by norm_num : (0 : ℚ) < 20), abs_of_pos (by norm_num : (0 : ℚ) < 25),
    abs_of_pos (by norm_num : (0 : ℚ) < 15)]
  norm_num

theorem min_le_average_le_max_on_grid_witness :
    (DataLogger.mk [20, 25, 15]).history ≠ [] ∧
      (DataLogger.mk [20, 25, 15]).getMin ≤ (DataLogger.mk [20, 25, 15]).getAverage ∧
      (DataLogger.mk [20, 25, 15]).getAverage ≤ (DataLogger.mk [20, 25, 15]).getMax :=
  ⟨by simp, min_le_average_le_max_on_grid ⟨[20, 25, 15]⟩ (by simp) grid_example grid_example_sum
    (by simp)⟩

/-- C2, as stated, fails: after the readings 0.0625, 0, 0 (the bytes `0x00 0x10`,
then `0x00 0x00` twice) `getAverage()` is 11184811/536870912, not
`sum / count = 1/48`. -/
theorem average_not_exact_quotient :
    readTemperature false (some (0x00, 0x10)) = 1 / 16 ∧
    readTemperature true (some (0x00, 0x10)) = 1 / 16 ∧
    readTemperature false (some (0x00, 0x00)) = 0 ∧
    readTemperature true (some (0x00, 0x00)) = 0 ∧
    (DataLogger.mk [1 / 16, 0, 0]).getAverage = 11184811 / 536870912 ∧
    (DataLogger.mk [1 / 16, 0, 0]).history.sum /
      ((DataLogger.mk [1 / 16, 0, 0]).history.length : ℚ) = 1 / 48 ∧
    (DataLogger.mk [1 / 16, 0, 0]).getAverage ≠
      (DataLogger.mk [1 / 16, 0, 0]).history.sum /
        ((DataLogger.mk [1 / 16, 0, 0]).history.length : ℚ) := by
  have hq : (DataLogger.mk [1 / 16, 0, 0]).history.sum /
      ((DataLogger.mk [1 / 16, 0, 0]).history.length : ℚ) = 1 / 48 := by
    simp only [List.sum_cons, List.sum_nil, List.length_cons, List.length_nil]
    norm_num
  have havg : (DataLogger.mk [1 / 16, 0, 0]).getAverage = 11184811 / 536870912 := by
    have hgrid : ∀ x ∈ (DataLogger.mk [1 / 16, 0, 0]).history, ∃ k : ℤ, x = (k : ℚ) / 16 := by
      intro x hx
      simp only [List.mem_cons, List.mem_singleton, List.not_mem_nil, or_false] at hx
      rcases hx with rfl | rfl | rfl
      · exact ⟨1, by norm_num⟩
      · exact ⟨0, by norm_num⟩
      · exact ⟨0, by norm_num⟩
    have hsum : 16 * ((DataLogger.mk [1 / 16, 0, 0]).history.map (fun x => |x|)).sum ≤ 2 ^ 24 := by
      simp only [List.map_cons, List.map_nil, List.sum_cons, List.sum_nil, abs_zero]
      rw [abs_of_pos (by norm_num : (0 : ℚ) < 1 / 16)]
      norm_num
    rw [getAverage_on_grid _ (by simp) hgrid hsum (by simp), hq]
    have hz : roundHalfEven ((1 / 48 : ℚ) / 2 ^ ((-6 : ℤ) - 23)) = 11184811 := by
      apply roundHalfEven_eq_of_near <;> norm_num [zpow_neg]
    have := f32round_eval (1 / 48) (-6) 11184811 (by norm_num)
      (by rw [abs_of_pos (by norm_num)]; norm_num [zpow_neg])
      (by rw [abs_of_pos (by norm_num)]; norm_num [zpow_neg]) hz
    rw [this]
    norm_num [zpow_neg]
  have hread : ∀ cs : Bool, readTemperature cs (some (0x00, 0x10)) = 1 / 16 ∧
      readTemperature cs (some (0x00, 0x00)) = 0 := by
    intro cs
    have r1 : rawTemperature cs 0x00 0x10 = 1 := by cases cs <;> decide
    have r2 : rawTemperature cs 0x00 0x00 = 0 := by cases cs <;> decide
    simp only [readTemperature, r1, r2]
    norm_num
  refine ⟨(hread false).1, (hread true).1, (hread false).2, (hread true).2, havg, hq, ?_⟩
  rw [havg, hq]
  norm_num

/-- C2, amended. For every non-empty history of multiples of 0.0625 with
`16 * Σ|reading| ≤ 2 ^ 24` and at most `2 ^ 24` readings, `getAverage()` is
`sum(history) / count(history)` rounded to the nearest binary32 value (ties to
even). For every non-empty history `getMin()` is a member below all others and
`getMax()` a member above all others; all three are `0` when the history is
empty; and appending `20`, `25`, `15` to the empty history gives average `20`,
minimum `15` and maximum `25`. -/
theorem statistics_correct (d : DataLogger) :
    (d.history ≠ [] → (∀ x ∈ d.history, ∃ k : ℤ, x = (k : ℚ) / 16) →
      16 * (d.history.map (fun x => |x|)).sum ≤ 2 ^ 24 → d.history.length ≤ 2 ^ 24 →
      d.getAverage = f32round (d.history.sum / (d.history.length : ℚ))) ∧
    (d.history ≠ [] →
      (d.getMin ∈ d.history ∧ ∀ x ∈ d.history, d.getMin ≤ x) ∧
      (d.getMax ∈ d.history ∧ ∀ x ∈ d.history, x ≤ d.getMax)) ∧
    (d.history = [] → d.getAverage = 0 ∧ d.getMin = 0 ∧ d.getMax = 0) ∧
    ((((DataLogger.mk []).logTemperature 20).logTemperature 25).logTemperature 15).getAverage = 20 ∧
    ((((DataLogger.mk []).logTemperature 20).logTemperature 25).logTemperature 15).getMin = 15 ∧
    ((((DataLogger.mk []).logTemperature 20).logTemperature 25).logTemperature 15).getMax = 25 := by
  refine ⟨fun h hgrid hsum hlen => getAverage_on_grid d h hgrid hsum hlen,
    fun h => ⟨⟨getMin_mem d h, getMin_le d⟩, ⟨getMax_mem d h, le_getMax d⟩⟩,
    fun h => ?_, ?_, by decide, by decide⟩
  · simp [getAverage, getMin, getMax, h]
  · have e : (((DataLogger.mk []).logTemperature 20).logTemperature 25).logTemperature 15 =
        DataLogger.mk [20, 25, 15] := rfl
    rw [e, getAverage_on_grid _ (by simp) grid_example grid_example_sum (by simp)]
    simp only [List.sum_cons, List.sum_nil, List.length_cons, List.length_nil]
    have := f32round_intCast 20 (by norm_num)
    norm_num at this ⊢
    exact this

theorem statistics_correct_witness :
    (DataLogger.mk [20, 25, 15]).history ≠ [] ∧
      (DataLogger.mk [20, 25, 15]).getAverage =
        f32round ((DataLogger.mk [20, 25, 15]).history.sum /
          ((DataLogger.mk [20, 25, 15]).history.length : ℚ)) ∧
      (DataLogger.mk [3, 1, 2]).getMin ∈ (DataLogger.mk [3, 1, 2]).history ∧
      (DataLogger.mk [3, 1, 2]).getMax ∈ (DataLogger.mk [3, 1, 2]).history ∧
      (DataLogger.mk []).getAverage = 0 :=
  ⟨by simp,
    (statistics_correct ⟨[20, 25, 15]⟩).1 (by simp) grid_example grid_example_sum (by simp),
    ((statistics_correct ⟨[3, 1, 2]⟩).2.1 (by simp)).1.1,
    ((statistics_correct ⟨[3, 1, 2]⟩).2.1 (by simp)).2.1,
    ((statistics_correct ⟨[]⟩).2.2.1 rfl).1⟩

end DataLogger

/-! ## Threshold steps -/

namespace TemperatureMonitor

theorem dispatch_raise_high (m : TemperatureMonitor) :
    m.dispatch 'h' =
      ⟨m.logger, ⟨fadd m.dashboard.highThreshold 1, m.dashboard.lowThreshold⟩, m.running⟩ := rfl

theorem dispatch_lower_high (m : TemperatureMonitor) :
    m.dispatch 'H' =
      ⟨m.logger, ⟨fsub m.dashboard.highThreshold 1, m.dashboard.lowThreshold⟩, m.running⟩ := rfl

theorem dispatch_raise_low (m : TemperatureMonitor) :
    m.dispatch 'l' =
      ⟨m.logger, ⟨m.dashboard.highThreshold, fadd m.dashboard.lowThreshold 1⟩, m.running⟩ := rfl

theorem dispatch_lower_low (m : TemperatureMonitor) :
    m.dispatch 'L' =
      ⟨m.logger, ⟨m.dashboard.highThreshold, fsub m.dashboard.lowThreshold 1⟩, m.running⟩ := rfl

/-- The thresholds after `n` presses of `'l'` from an integer low threshold, while
the result stays within `2 ^ 24`. -/
theorem presses_raise_low (n : ℕ) :
    ∀ (m : TemperatureMonitor) (a : ℤ), m.dashboard.lowThreshold = a → |a| + n ≤ 2 ^ 24 →
      ((List.replicate n 'l').foldl dispatch m).dashboard =
        ⟨m.dashboard.highThreshold, (a : ℚ) + n⟩ := by
  induction n with
  | zero =>
    intro m a ha _
    simp only [List.replicate_zero, List.foldl_nil, Nat.cast_zero, add_zero, ← ha]
  | succ n ih =>
    intro m a ha hb
    have hstep : fadd m.dashboard.lowThreshold 1 = ((a + 1 : ℤ) : ℚ) := by
      have h1 : |a + 1| ≤ 2 ^ 24 := by
        have := abs_add a 1
        simp only [abs_one] at this
        push_cast at hb
        omega
      rw [fadd_one_exact _ a ha h1, ha]
      push_cast
      rfl
    rw [List.replicate_succ, List.foldl_cons, ih (m.dispatch 'l') (a + 1)]
    · rw [dispatch_raise_low]
      simp only [Dashboard.mk.injEq, true_and]
      push_cast
      ring
    · rw [dispatch_raise_low]
      exact hstep
    · have := abs_add a 1
      push_cast at hb ⊢
      simp only [abs_one] at this
      omega

/-- The high threshold after `n` presses of `'h'` from an integer high threshold,
while the result stays within `2 ^ 24`. -/
theorem presses_raise_high (n : ℕ) :
    ∀ (m : TemperatureMonitor) (a : ℤ), m.dashboard.highThreshold = a → |a| + n ≤ 2 ^ 24 →
      ((List.replicate n 'h').foldl dispatch m).dashboard.highThreshold = (a : ℚ) + n := by
  induction n with
  | zero =>
    intro m a ha _
    simp only [List.replicate_zero, List.foldl_nil, Nat.cast_zero, add_zero, ← ha]
  | succ n ih =>
    intro m a ha hb
    have hstep : fadd m.dashboard.highThreshold 1 = ((a + 1 : ℤ) : ℚ) := by
      have h1 : |a + 1| ≤ 2 ^ 24 := by
        have := abs_add a 1
        simp only [abs_one] at this
        push_cast at hb
        omega
      rw [fadd_one_exact _ a ha h1, ha]
      push_cast
      rfl
    rw [List.replicate_succ, List.foldl_cons, ih (m.dispatch 'h') (a + 1)]
    · push_cast
      ring
    · rw [dispatch_raise_high]
      exact hstep
    · have := abs_add a 1
      push_cast at hb ⊢
      simp only [abs_one] at this
      omega

end TemperatureMonitor

namespace Dashboard

/-- C3. The alert status computed in `display` is High if `value > high`,
otherwise Low if `value < low`, otherwise Normal; the three cases exclude each
other and cover every input; with thresholds (30, 10): 35 is High, 5 is Low and
20, 30, 10 are Normal. -/
theorem alert_status_classification (b : Dashboard) (value avg min max : ℚ) :
    ((b.display value avg min max).alert = AlertState.High ↔ value > b.highThreshold) ∧
    ((b.display value avg min max).alert = AlertState.Low ↔
      ¬ value > b.highThreshold ∧ value < b.lowThreshold) ∧
    ((b.display value avg min max).alert = AlertState.Normal ↔
      ¬ value > b.highThreshold ∧ ¬ value < b.lowThreshold) ∧
    ((Dashboard.mk 30 10).display 35 avg min max).alert = AlertState.High ∧
    ((Dashboard.mk 30 10).display 5 avg min max).alert = AlertState.Low ∧
    ((Dashboard.mk 30 10).display 20 avg min max).alert = AlertState.Normal ∧
    ((Dashboard.mk 30 10).display 30 avg min max).alert = AlertState.Normal ∧
    ((Dashboard.mk 30 10).display 10 avg min max).alert = AlertState.Normal := by
  have ex : ∀ v : ℚ, ((Dashboard.mk 30 10).display v avg min max).alert =
      (Dashboard.mk 30 10).alertStatus v := fun _ => rfl
  refine ⟨?_, ?_, ?_, (ex 35).trans (by decide), (ex 5).trans (by decide),
    (ex 20).trans (by decide), (ex 30).trans (by decide), (ex 10).trans (by decide)⟩
  · simp only [display, alertStatus]
    by_cases h1 : value > b.highThreshold
    · simp [h1]
    · by_cases h2 : value < b.lowThreshold <;> simp [h1, h2]
  · simp only [display, alertStatus]
    by_cases h1 : value > b.highThreshold
    · simp [h1]
    · by_cases h2 : value < b.lowThreshold <;> simp [h1, h2]
  · simp only [display, alertStatus]
    by_cases h1 : value > b.highThreshold
    · simp [h1]
    · by_cases h2 : value < b.lowThreshold <;> simp [h1, h2]

/-- C4, as stated, fails: with `high = 30` and `low = 31` the value `30`, equal
to `high`, is classified Low, and the value `31`, equal to `low`, is classified
High. These thresholds are reached from the initial ones by 21 presses of `'l'`. -/
theorem threshold_value_not_normal :
    ((Dashboard.mk 30 31).display 30 0 0 0).alert = AlertState.Low ∧
    ((Dashboard.mk 30 31).display 30 0 0 0).alert ≠ AlertState.Normal ∧
    ((Dashboard.mk 30 31).display 31 0 0 0).alert = AlertState.High ∧
    ((Dashboard.mk 30 31).display 31 0 0 0).alert ≠ AlertState.Normal ∧
    ((List.replicate 21 'l').foldl TemperatureMonitor.dispatch {}).dashboard =
      Dashboard.mk 30 31 := by
  refine ⟨by decide, by decide, by decide, by decide, ?_⟩
  have h := TemperatureMonitor.presses_raise_low 21 {} 10 (by norm_num) (by norm_num)
  rw [h]
  norm_num

/-- C4, amended. When `low ≤ high`, a value equal to `high` and a value equal to
`low` are both classified Normal; when `high < low`, a value equal to `high` is
classified Low and a value equal to `low` is classified High. -/
theorem threshold_value_classification (b : Dashboard) (value avg min max : ℚ) :
    (b.lowThreshold ≤ b.highThreshold →
      (value = b.highThreshold → (b.display value avg min max).alert = AlertState.Normal) ∧
      (value = b.lowThreshold → (b.display value avg min max).alert = AlertState.Normal)) ∧
    (b.highThreshold < b.lowThreshold →
      (value = b.highThreshold → (b.display value avg min max).alert = AlertState.Low) ∧
      (value = b.lowThreshold → (b.display value avg min max).alert = AlertState.High)) := by
  simp only [display, alertStatus]
  refine ⟨fun h => ⟨?_, ?_⟩, fun h => ⟨?_, ?_⟩⟩
  · rintro rfl
    simp [not_lt.mpr h]
  · rintro rfl
    simp [not_lt.mpr h]
  · rintro rfl
    simp [h]
  · rintro rfl
    simp [h]

theorem threshold_value_classification_witness :
    ((Dashboard.mk 30 10).display 30 0 0 0).alert = AlertState.Normal ∧
    ((Dashboard.mk 30 10).display 10 0 0 0).alert = AlertState.Normal ∧
    ((Dashboard.mk 30 31).display 30 0 0 0).alert = AlertState.Low ∧
    ((Dashboard.mk 30 31).display 31 0 0 0).alert = AlertState.High :=
  ⟨((threshold_value_classification ⟨30, 10⟩ 30 0 0 0).1 (by decide)).1 rfl,
    ((threshold_value_classification ⟨30, 10⟩ 10 0 0 0).1 (by decide)).2 rfl,
    ((threshold_value_classification ⟨30, 31⟩ 30 0 0 0).2 (by decide)).1 rfl,
    ((threshold_value_classification ⟨30, 31⟩ 31 0 0 0).2 (by decide)).2 rfl⟩

end Dashboard

namespace TemperatureMonitor

theorem dispatch_other (m : TemperatureMonitor) (key : Char)
    (h : key ≠ 'h' ∧ key ≠ 'H' ∧ key ≠ 'l' ∧ key ≠ 'L' ∧ key ≠ 'r' ∧ key ≠ 'q') :
    m.dispatch key = m := by
  obtain ⟨h1, h2, h3, h4, h5, h6⟩ := h
  unfold dispatch
  split <;> first | rfl | contradiction

theorem dispatch_running (m : TemperatureMonitor) (key : Char) :
    (m.dispatch key).running = (m.running && decide (key ≠ 'q')) := by
  unfold dispatch
  split <;> simp_all

theorem tick_running (cs : Bool) (m : TemperatureMonitor) (i : TickInput) :
    (tick cs m i).1.running = (m.running && decide (getKey i.pending ≠ 'q')) := by
  simp only [tick, body, dispatch_running, logged]

theorem tick_events_length (cs : Bool) (m : TemperatureMonitor) (i : TickInput) :
    (tick cs m i).2.length = 2 := rfl

theorem upToFirstQuit_cons (i : TickInput) (rest : List TickInput) :
    upToFirstQuit (i :: rest) =
      if getKey i.pending = 'q' then [i] else i :: upToFirstQuit rest := by
  unfold upToFirstQuit
  by_cases h : getKey i.pending = 'q'
  · simp [List.takeWhile_cons, h]
  · simp [List.takeWhile_cons, h]

/-- C5, as stated, fails: after 16777186 presses of `'h'` from the initial state
the high threshold is 16777216, and there `'h'` leaves it at 16777216 instead of
setting it to 16777217. -/
theorem raise_high_saturates :
    ((List.replicate 16777186 'h').foldl dispatch {}).dashboard.highThreshold = 16777216 ∧
    ((TemperatureMonitor.mk ⟨[]⟩ ⟨16777216, 10⟩ true).dispatch 'h').dashboard.highThreshold =
      16777216 ∧
    (TemperatureMonitor.mk ⟨[]⟩ ⟨16777216, 10⟩ true).dispatch 'h' ≠
      ⟨⟨[]⟩, ⟨16777216 + 1, 10⟩, true⟩ := by
  have h2 : ((TemperatureMonitor.mk ⟨[]⟩ ⟨16777216, 10⟩ true).dispatch 'h').dashboard.highThreshold
      = 16777216 := by
    rw [dispatch_raise_high]
    exact fadd_two_pow_24
  refine ⟨?_, h2, ?_⟩
  · have h := presses_raise_high 16777186 {} 30 (by norm_num) (by norm_num)
    rw [h]
    norm_num
  · intro he
    have := congrArg (fun t : TemperatureMonitor => t.dashboard.highThreshold) he
    simp only [h2] at this
    norm_num at this

/-- C5, amended. For every state whose thresholds are integers of magnitude below
`2 ^ 24`, `'h'` sets high to high+1, `'H'` to high-1, `'l'` sets low to low+1 and
`'L'` to low-1; for every state `'r'` empties the history, `'q'` clears the
running flag and every other byte (also the `'\0'` of an empty poll) changes
nothing; in each case the other components are unchanged. Three ticks
dispatching `h`, `h`, `r` from high = 30 and history `[1, 2, 3]` end with
high = 32 and an empty history. -/
theorem dispatch_command_alphabet (m : TemperatureMonitor) (key : Char) :
    (∀ a : ℤ, m.dashboard.highThreshold = a → |a| < 2 ^ 24 →
      m.dispatch 'h' =
        ⟨m.logger, ⟨m.dashboard.highThreshold + 1, m.dashboard.lowThreshold⟩, m.running⟩ ∧
      m.dispatch 'H' =
        ⟨m.logger, ⟨m.dashboard.highThreshold - 1, m.dashboard.lowThreshold⟩, m.running⟩) ∧
    (∀ a : ℤ, m.dashboard.lowThreshold = a → |a| < 2 ^ 24 →
      m.dispatch 'l' =
        ⟨m.logger, ⟨m.dashboard.highThreshold, m.dashboard.lowThreshold + 1⟩, m.running⟩ ∧
      m.dispatch 'L' =
        ⟨m.logger, ⟨m.dashboard.highThreshold, m.dashboard.lowThreshold - 1⟩, m.running⟩) ∧
    m.dispatch 'r' = ⟨⟨[]⟩, m.dashboard, m.running⟩ ∧
    m.dispatch 'q' = ⟨m.logger, m.dashboard, false⟩ ∧
    ((key ≠ 'h' ∧ key ≠ 'H' ∧ key ≠ 'l' ∧ key ≠ 'L' ∧ key ≠ 'r' ∧ key ≠ 'q') →
      m.dispatch key = m) ∧
    (getKey none = '\x00' ∧ m.dispatch (getKey none) = m) ∧
    (∀ (cs : Bool) (low : ℚ) (s1 s2 s3 : Option (Byte × Byte)),
      (run cs ⟨⟨[1, 2, 3]⟩, ⟨30, low⟩, true⟩
        [⟨s1, some 'h'⟩, ⟨s2, some 'h'⟩, ⟨s3, some 'r'⟩]).1 = ⟨⟨[]⟩, ⟨32, low⟩, true⟩) := by
  refine ⟨fun a ha hb => ⟨?_, ?_⟩, fun a ha hb => ⟨?_, ?_⟩, rfl, rfl, dispatch_other m key,
    ⟨rfl, rfl⟩, ?_⟩
  · rw [dispatch_raise_high, fadd_one_exact _ a ha (abs_succ_le a hb)]
  · rw [dispatch_lower_high, fsub_one_exact _ a ha (abs_pred_le a hb)]
  · rw [dispatch_raise_low, fadd_one_exact _ a ha (abs_succ_le a hb)]
  · rw [dispatch_lower_low, fsub_one_exact _ a ha (abs_pred_le a hb)]
  · intro cs low s1 s2 s3
    have e1 : fadd 30 1 = 31 := by
      rw [fadd_one_exact 30 30 (by norm_num) (by norm_num)]
      norm_num
    have e2 : fadd 31 1 = 32 := by
      rw [fadd_one_exact 31 31 (by norm_num) (by norm_num)]
      norm_num
    simp [run, tick, body, logged, dispatch, getKey, Dashboard.setHighThreshold,
      Dashboard.getHighThreshold, DataLogger.clearLog, e1, e2]

theorem dispatch_command_alphabet_witness :
    (TemperatureMonitor.mk ⟨[1, 2, 3]⟩ ⟨30, 10⟩ true).dispatch 'h' =
      TemperatureMonitor.mk ⟨[1, 2, 3]⟩ ⟨30 + 1, 10⟩ true ∧
    (TemperatureMonitor.mk ⟨[1, 2, 3]⟩ ⟨30, 10⟩ true).dispatch 'L' =
      TemperatureMonitor.mk ⟨[1, 2, 3]⟩ ⟨30, 10 - 1⟩ true ∧
    (TemperatureMonitor.mk ⟨[1, 2, 3]⟩ ⟨30, 10⟩ true).dispatch 'x' =
      TemperatureMonitor.mk ⟨[1, 2, 3]⟩ ⟨30, 10⟩ true :=
  ⟨((dispatch_command_alphabet ⟨⟨[1, 2, 3]⟩, ⟨30, 10⟩, true⟩ 'x').1 30 (by norm_num)
      (by norm_num)).1,
    ((dispatch_command_alphabet ⟨⟨[1, 2, 3]⟩, ⟨30, 10⟩, true⟩ 'x').2.1 10 (by norm_num)
      (by norm_num)).2,
    (dispatch_command_alphabet ⟨⟨[1, 2, 3]⟩, ⟨30, 10⟩, true⟩ 'x').2.2.2.2.1 (by decide)⟩

/-- C6, as stated, fails: at high = 16777216 (reached by 16777186 presses of
`'h'`), `'h'` then `'H'` ends at 16777215; at high = -16777216, `'H'` then `'h'`
ends at -16777215. -/
theorem step_round_trip_fails :
    ((List.replicate 16777186 'h').foldl dispatch {}).dashboard.highThreshold = 16777216 ∧
    (((TemperatureMonitor.mk ⟨[]⟩ ⟨16777216, 10⟩ true).dispatch 'h').dispatch
      'H').dashboard.highThreshold = 16777215 ∧
    (((TemperatureMonitor.mk ⟨[]⟩ ⟨-16777216, 10⟩ true).dispatch 'H').dispatch
      'h').dashboard.highThreshold = -16777215 ∧
    ((TemperatureMonitor.mk ⟨[]⟩ ⟨16777216, 10⟩ true).dispatch 'h').dispatch 'H' ≠
      TemperatureMonitor.mk ⟨[]⟩ ⟨16777216, 10⟩ true := by
  have h2 : (((TemperatureMonitor.mk ⟨[]⟩ ⟨16777216, 10⟩ true).dispatch 'h').dispatch
      'H').dashboard.highThreshold = 16777215 := by
    rw [dispatch_lower_high, dispatch_raise_high]
    show fsub (fadd 16777216 1) 1 = 16777215
    rw [fadd_two_pow_24, fsub_one_exact 16777216 16777216 (by norm_num) (by norm_num)]
    norm_num
  refine ⟨?_, h2, ?_, ?_⟩
  · have h := presses_raise_high 16777186 {} 30 (by norm_num) (by norm_num)
    rw [h]
    norm_num
  · rw [dispatch_raise_high, dispatch_lower_high]
    show fadd (fsub (-16777216) 1) 1 = -16777215
    rw [fsub_neg_two_pow_24, fadd_one_exact (-16777216) (-16777216) (by norm_num) (by norm_num)]
    norm_num
  · intro he
    have := congrArg (fun t : TemperatureMonitor => t.dashboard.highThreshold) he
    simp only [h2] at this
    norm_num at this

/-- C6, amended. For every pair of integer thresholds of magnitude below `2 ^ 24`,
whatever their order, raising high (`'h'`) then lowering it (`'H'`) restores the
state, and so does lowering then raising; the same for low with `'l'` and `'L'`.
Each of these steps is a total function of the state: there is no error
outcome. -/
theorem threshold_step_symmetry (m : TemperatureMonitor) :
    (∀ a : ℤ, m.dashboard.highThreshold = a → |a| < 2 ^ 24 →
      (m.dispatch 'h').dispatch 'H' = m ∧ (m.dispatch 'H').dispatch 'h' = m) ∧
    (∀ a : ℤ, m.dashboard.lowThreshold = a → |a| < 2 ^ 24 →
      (m.dispatch 'l').dispatch 'L' = m ∧ (m.dispatch 'L').dispatch 'l' = m) := by
  refine ⟨fun a ha hb => ⟨?_, ?_⟩, fun a ha hb => ⟨?_, ?_⟩⟩
  · rw [dispatch_lower_high, dispatch_raise_high]
    simp only
    rw [fadd_one_exact _ a ha (abs_succ_le a hb),
      fsub_one_exact _ (a + 1) (by rw [ha]; push_cast; rfl) (by simpa using le_of_lt hb)]
    simp
  · rw [dispatch_raise_high, dispatch_lower_high]
    simp only
    rw [fsub_one_exact _ a ha (abs_pred_le a hb),
      fadd_one_exact _ (a - 1) (by rw [ha]; push_cast; rfl) (by simpa using le_of_lt hb)]
    simp
  · rw [dispatch_lower_low, dispatch_raise_low]
    simp only
    rw [fadd_one_exact _ a ha (abs_succ_le a hb),
      fsub_one_exact _ (a + 1) (by rw [ha]; push_cast; rfl) (by simpa using le_of_lt hb)]
    simp
  · rw [dispatch_raise_low, dispatch_lower_low]
    simp only
    rw [fsub_one_exact _ a ha (abs_pred_le a hb),
      fadd_one_exact _ (a - 1) (by rw [ha]; push_cast; rfl) (by simpa using le_of_lt hb)]
    simp

theorem threshold_step_symmetry_witness :
    ((TemperatureMonitor.mk ⟨[]⟩ ⟨10, 30⟩ true).dispatch 'h').dispatch 'H' =
      TemperatureMonitor.mk ⟨[]⟩ ⟨10, 30⟩ true ∧
    ((TemperatureMonitor.mk ⟨[]⟩ ⟨10, 30⟩ true).dispatch 'L').dispatch 'l' =
      TemperatureMonitor.mk ⟨[]⟩ ⟨10, 30⟩ true :=
  ⟨((threshold_step_symmetry ⟨⟨[]⟩, ⟨10, 30⟩, true⟩).1 10 (by norm_num) (by norm_num)).1,
    ((threshold_step_symmetry ⟨⟨[]⟩, ⟨10, 30⟩, true⟩).2 30 (by norm_num) (by norm_num)).2⟩

theorem run_eq_executeTicks (cs : Bool) (inputs : List TickInput) :
    ∀ m : TemperatureMonitor, m.running = true →
      run cs m inputs = executeTicks cs m (upToFirstQuit inputs) := by
  induction inputs with
  | nil => intro m _; rfl
  | cons i rest ih =>
    intro m hm
    rw [upToFirstQuit_cons]
    by_cases hq : getKey i.pending = 'q'
    · have hstop : (tick cs m i).1.running = false := by simp [tick_running, hq]
      rw [if_pos hq]
      cases rest with
      | nil => simp [run, executeTicks, hm]
      | cons j more => simp [run, executeTicks, hm, hstop]
    · have hgo : (tick cs m i).1.running = true := by simp [tick_running, hm, hq]
      rw [if_neg hq]
      simp only [run, executeTicks, hm, if_true]
      rw [ih _ hgo]

theorem run_running (cs : Bool) (inputs : List TickInput) :
    ∀ m : TemperatureMonitor, m.running = true →
      ((run cs m inputs).1.running = false ↔ ∃ i ∈ inputs, getKey i.pending = 'q') := by
  induction inputs with
  | nil => intro m hm; simp [run, hm]
  | cons i rest ih =>
    intro m hm
    by_cases hq : getKey i.pending = 'q'
    · have hstop : (tick cs m i).1.running = false := by simp [tick_running, hq]
      cases rest with
      | nil => simp [run, hm, hstop, hq]
      | cons j more => simp [run, hm, hstop, hq]
    · have hgo : (tick cs m i).1.running = true := by simp [tick_running, hm, hq]
      simp only [run, hm, if_true, ih _ hgo]
      simp [hq]

theorem executeTicks_events_length (cs : Bool) (inputs : List TickInput) :
    ∀ m : TemperatureMonitor, (executeTicks cs m inputs).2.length = 2 * inputs.length := by
  induction inputs with
  | nil => intro m; rfl
  | cons i rest ih =>
    intro m
    simp only [executeTicks, List.length_append, ih, tick_events_length, List.length_cons]
    ring

theorem tick_history (cs : Bool) (m : TemperatureMonitor) (i : TickInput)
    (h : getKey i.pending ≠ 'r') :
    (tick cs m i).1.logger.history = m.logger.history ++ [readTemperature cs i.sensor] := by
  simp only [tick, body, logged]
  unfold dispatch
  split <;> first | rfl | exact absurd (by assumption) h

theorem executeTicks_history (cs : Bool) (inputs : List TickInput) :
    ∀ m : TemperatureMonitor, (∀ i ∈ inputs, getKey i.pending ≠ 'r') →
      (executeTicks cs m inputs).1.logger.history =
        m.logger.history ++ inputs.map (fun i => readTemperature cs i.sensor) := by
  induction inputs with
  | nil => intro m _; simp [executeTicks]
  | cons i rest ih =>
    intro m h
    simp only [executeTicks, List.map_cons]
    rw [ih _ (fun j hj => h j (List.mem_cons_of_mem _ hj)),
      tick_history cs m i (h i (List.mem_cons_self _ _)), List.append_assoc]
    rfl

/-- C7. From the Running state, on every finite sequence of tick inputs, `run`
executes exactly the ticks up to and including the first one whose polled key is
`'q'` (all of them when there is none): its final state and trace are those of
executing these ticks and no other, the number of executed ticks is the length
of that prefix, no reading after it is appended to the history, and the loop has
stopped at the end if and only if some polled key was `'q'`. -/
theorem run_stops_at_first_quit (cs : Bool) (m : TemperatureMonitor) (inputs : List TickInput)
    (h : m.running = true) :
    run cs m inputs = executeTicks cs m (upToFirstQuit inputs) ∧
    upToFirstQuit inputs =
      inputs.take ((inputs.takeWhile (fun i => getKey i.pending != 'q')).length + 1) ∧
    (run cs m inputs).2.length = 2 * (upToFirstQuit inputs).length ∧
    ((∀ i ∈ upToFirstQuit inputs, getKey i.pending ≠ 'r') →
      (run cs m inputs).1.logger.history =
        m.logger.history ++ (upToFirstQuit inputs).map (fun i => readTemperature cs i.sensor)) ∧
    ((run cs m inputs).1.running = false ↔ ∃ i ∈ inputs, getKey i.pending = 'q') ∧
    ((∀ i ∈ inputs, getKey i.pending ≠ 'q') →
      (run cs m inputs).1.running = true ∧ run cs m inputs = executeTicks cs m inputs) := by
  refine ⟨run_eq_executeTicks cs inputs m h, rfl, ?_, fun hr => ?_, run_running cs inputs m h,
    fun hall => ?_⟩
  · rw [run_eq_executeTicks cs inputs m h, executeTicks_events_length]
  · rw [run_eq_executeTicks cs inputs m h, executeTicks_history cs _ m hr]
  · have hr : ¬ (run cs m inputs).1.running = false := by
      rw [run_running cs inputs m h]
      rintro ⟨i, hi, hq⟩
      exact hall i hi hq
    refine ⟨by simpa using hr, ?_⟩
    rw [run_eq_executeTicks cs inputs m h]
    have htw : inputs.takeWhile (fun i => getKey i.pending != 'q') = inputs := by
      rw [List.takeWhile_eq_self_iff]
      intro i hi
      simpa using hall i hi
    unfold upToFirstQuit
    rw [htw, List.take_of_length_le (Nat.le_succ _)]

theorem run_stops_at_first_quit_witness :
    (({} : TemperatureMonitor).running = true) ∧
    (run false {} [⟨none, some 'h'⟩, ⟨none, some 'q'⟩, ⟨some (0x19, 0x00), some 'h'⟩]).1 =
      ⟨⟨[0, 0]⟩, ⟨31, 10⟩, false⟩ := by
  refine ⟨rfl, ?_⟩
  have h := (run_stops_at_first_quit false {}
    [⟨none, some 'h'⟩, ⟨none, some 'q'⟩, ⟨some (0x19, 0x00), some 'h'⟩] rfl).1
  have e1 : fadd 30 1 = 31 := by
    rw [fadd_one_exact 30 30 (by norm_num) (by norm_num)]
    norm_num
  rw [h]
  simp [upToFirstQuit, executeTicks, tick, body, logged, dispatch, getKey, readTemperature,
    DataLogger.logTemperature, Dashboard.setHighThreshold, Dashboard.getHighThreshold, e1]

/-- C8. A tick whose sensor read fails uses the value `0`: the history after the
append step is the previous history with `0` at the end, that `0` is the value
passed to `display`, the tick continues with the dispatch of the polled key, and
afterwards the running flag is what it was, unless the polled key is `'q'`. -/
theorem failed_read_tick (cs : Bool) (m : TemperatureMonitor) (pending : Option Char) :
    readTemperature cs none = 0 ∧
    (m.logged (readTemperature cs none)).logger.history = m.logger.history ++ [0] ∧
    (tick cs m ⟨none, pending⟩).2 =
      [Event.displayed ((m.logged 0).dashboard.display 0 (m.logged 0).logger.getAverage
        (m.logged 0).logger.getMin (m.logged 0).logger.getMax), Event.slept 1000] ∧
    (tick cs m ⟨none, pending⟩).1 = (m.logged 0).dispatch (getKey pending) ∧
    (tick cs m ⟨none, pending⟩).1.running = (m.running && decide (getKey pending ≠ 'q')) :=
  ⟨rfl, rfl, rfl, rfl, tick_running cs m ⟨none, pending⟩⟩

/-- C9, as stated, fails: the tick that dispatches `'q'` leaves the running flag
false and still ends with the 1-second suspension. -/
theorem quit_tick_suspends :
    (tick false {} ⟨none, some 'q'⟩).1.running = false ∧
    (tick false {} ⟨none, some 'q'⟩).2.getLast? = some (Event.slept 1000) ∧
    (run false {} [⟨none, some 'q'⟩]).1.running = false ∧
    (run false {} [⟨none, some 'q'⟩]).2.getLast? = some (Event.slept 1000) := by
  refine ⟨rfl, rfl, rfl, rfl⟩

/-- C9, amended. Every tick of `run` ends with the 1-second suspension, whatever
the loop state after dispatch: its trace is the display followed by the
suspension, also for the tick that dispatches `'q'`, which suspends before
control returns to the caller. -/
theorem every_tick_suspends (cs : Bool) (m : TemperatureMonitor) (i : TickInput)
    (sensor : Option (Byte × Byte)) :
    (∃ snapshot, (tick cs m i).2 = [Event.displayed snapshot, Event.slept 1000]) ∧
    (tick cs m i).2.getLast? = some (Event.slept 1000) ∧
    (tick cs m ⟨sensor, some 'q'⟩).1.running = false ∧
    (tick cs m ⟨sensor, some 'q'⟩).2.getLast? = some (Event.slept 1000) :=
  ⟨⟨_, rfl⟩, rfl, rfl, rfl⟩

end TemperatureMonitor

/-! ## The sensor conversion, byte by byte -/

section Sensor

theorem and_bit11 (u : Nat) (hu : u < 4096) : (u &&& 0x800 ≠ 0) ↔ 2048 ≤ u := by
  have e : (0x800 : Nat) = 2 ^ 11 := by norm_num
  rw [e]
  constructor
  · intro h
    by_contra hlt
    apply h
    apply Nat.eq_of_testBit_eq
    intro i
    rw [Nat.testBit_and, Nat.testBit_two_pow, Nat.zero_testBit]
    by_cases hi : 11 = i
    · subst hi
      rw [Nat.testBit_lt_two_pow (by omega)]
      rfl
    · simp [hi]
  · intro h hz
    have h1 : (u &&& 2 ^ 11).testBit 11 = true := by
      rw [Nat.testBit_and, Nat.testBit_two_pow]
      have : u = 2 ^ 11 + (u - 2 ^ 11) := by omega
      rw [this, Nat.testBit_two_pow_add_eq, Nat.testBit_lt_two_pow (by omega)]
      rfl
    rw [hz, Nat.zero_testBit] at h1
    exact Bool.noConfusion h1

theorem or_f000 (u : Nat) (hu : u < 4096) : u ||| 0xF000 = u + 0xF000 := by
  have e : (0xF000 : Nat) = 2 ^ 12 * 15 := by norm_num
  rw [e, Nat.or_comm, ← Nat.mul_add_lt_is_or (by omega) 15, Nat.add_comm]

theorem or_nibble (a k : Nat) (hk : k < 16) : a * 16 ||| k = a * 16 + k := by
  have := Nat.mul_add_lt_is_or (i := 4) (b := k) (by omega) a
  rw [show (2:Nat) ^ 4 = 16 by norm_num, Nat.mul_comm] at this
  exact this.symm

/-- With an unsigned `char`, `raw` is the unsigned 12-bit value `u`, plus `0xF000`
when bit 11 of `u` is set. -/
theorem rawTemperature_unsigned (b0 b1 : Byte) :
    rawTemperature false b0 b1 =
      if 2048 ≤ b0.val * 16 + b1.val / 16
      then ((b0.val * 16 + b1.val / 16 : Nat) : Int) + 61440
      else ((b0.val * 16 + b1.val / 16 : Nat) : Int) := by
  have h0 := b0.isLt
  have h1 := b1.isLt
  have s0 : toBits32 (charToInt false b0 * 16) = b0.val * 16 := by
    simp [toBits32, charToInt]
    omega
  have s1 : toBits32 ((charToInt false b1).shiftRight 4) = b1.val / 16 := by
    simp only [toBits32, charToInt, Bool.false_and, Bool.false_eq_true, if_false]
    rw [← Int.shiftRight_eq, Int.shiftRight_eq_div_pow]
    omega
  have hk : b1.val / 16 < 16 := by omega
  have hu : b0.val * 16 + b1.val / 16 < 4096 := by omega
  simp only [rawTemperature, s0, s1, or_nibble _ _ hk, and_bit11 _ hu]
  by_cases h : 2048 ≤ b0.val * 16 + b1.val / 16
  · simp only [h, if_true, or_f000 _ hu, ofBits32]
    split <;> omega
  · simp only [h, if_false, ofBits32]
    split <;> omega

set_option maxRecDepth 20000 in
theorem rawTemperature_signed_nibbles : ∀ b0 : Byte, ∀ k : Fin 16,
    rawTemperature true b0 ⟨16 * k.val, by omega⟩ =
      if 8 ≤ k.val then (k.val : Int) - 16
      else if 128 ≤ b0.val then ((b0.val * 16 + k.val : Nat) : Int) - 4096
      else ((b0.val * 16 + k.val : Nat) : Int) := by
  decide

theorem shiftRight_signed_char (b1 : Byte) (h : 16 * (b1.val / 16) < 256) :
    (charToInt true b1).shiftRight 4 =
      (charToInt true ⟨16 * (b1.val / 16), h⟩).shiftRight 4 := by
  have h1 := b1.isLt
  rw [← Int.shiftRight_eq, ← Int.shiftRight_eq, Int.shiftRight_eq_div_pow,
    Int.shiftRight_eq_div_pow]
  simp only [charToInt, Bool.true_and]
  by_cases c : 128 ≤ b1.val
  · have c2 : 128 ≤ 16 * (b1.val / 16) := by omega
    simp only [c, c2, decide_True, if_true]
    omega
  · have c2 : ¬ 128 ≤ 16 * (b1.val / 16) := by omega
    simp only [c, c2, decide_False, Bool.false_eq_true, if_false]
    omega

/-- With a signed `char`, `raw` is the signed 12-bit value when `b1 < 0x80`, and
is `b1 / 16 - 16`, whatever `b0`, when `b1 ≥ 0x80`. -/
theorem rawTemperature_signed (b0 b1 : Byte) :
    rawTemperature true b0 b1 =
      if 128 ≤ b1.val then ((b1.val / 16 : Nat) : Int) - 16
      else if 128 ≤ b0.val then ((b0.val * 16 + b1.val / 16 : Nat) : Int) - 4096
      else ((b0.val * 16 + b1.val / 16 : Nat) : Int) := by
  have h1 := b1.isLt
  have hlt : 16 * (b1.val / 16) < 256 := by omega
  have hk : b1.val / 16 < 16 := by omega
  have e : rawTemperature true b0 b1 = rawTemperature true b0 ⟨16 * (b1.val / 16), hlt⟩ := by
    simp only [rawTemperature, shiftRight_signed_char b1 hlt]
  rw [e, rawTemperature_signed_nibbles b0 ⟨b1.val / 16, hk⟩]
  have c : (8 ≤ b1.val / 16) ↔ 128 ≤ b1.val := by omega
  simp only [c]

/-- With an unsigned `char` the reading is right when bit 11 is clear and is
4096 too large when it is set. -/
theorem readTemperature_unsigned (b0 b1 : Byte) :
    readTemperature false (some (b0, b1)) =
      twelveBitCelsius b0 b1 + (if 2048 ≤ b0.val * 16 + b1.val / 16 then 4096 else 0) := by
  simp only [readTemperature, twelveBitCelsius, twelveBitValue, rawTemperature_unsigned]
  split
  · push_cast
    norm_num
    ring
  · simp

/-- With a signed `char` the reading is right whenever `b1 < 0x80`. -/
theorem readTemperature_signed (b0 b1 : Byte) (h : b1.val < 128) :
    readTemperature true (some (b0, b1)) = twelveBitCelsius b0 b1 := by
  have h1 : ¬ 128 ≤ b1.val := by omega
  have hb : (2048 ≤ b0.val * 16 + b1.val / 16) ↔ 128 ≤ b0.val := by omega
  simp only [readTemperature, twelveBitCelsius, twelveBitValue, rawTemperature_signed, h1,
    if_false, hb]

end Sensor

/-- C10. The code does not return the 12-bit two's-complement value. With an
unsigned `char`, the bytes `0xFF 0xF0` (-0.0625 °C) give 4095.9375: `raw |= 0xF000`
sets bits 12-15 of a 32-bit `int` and leaves it positive. With a signed `char`,
the bytes `0x00 0x80` (0.5 °C) give -0.5: `buf[1] >> 4` is negative. -/
theorem readTemperature_sign_defect :
    readTemperature false (some (0xFF, 0xF0)) = 4095.9375 ∧
    twelveBitCelsius 0xFF 0xF0 = -0.0625 ∧
    readTemperature true (some (0x00, 0x80)) = -0.5 ∧
    twelveBitCelsius 0x00 0x80 = 0.5 := by
  have r1 : rawTemperature false 0xFF 0xF0 = 65535 := by decide
  have r2 : rawTemperature true 0x00 0x80 = -8 := by decide
  have t1 : twelveBitValue 0xFF 0xF0 = -1 := by decide
  have t2 : twelveBitValue 0x00 0x80 = 8 := by decide
  refine ⟨?_, ?_, ?_, ?_⟩
  · simp only [readTemperature, r1]; norm_num
  · simp only [twelveBitCelsius, t1]; norm_num
  · simp only [readTemperature, r2]; norm_num
  · simp only [twelveBitCelsius, t2]; norm_num

end TempMonitor
